import Mathlib

/-!
Shallow embedding of the news-alerts pipeline (main.py, src/news_fetcher.py,
src/keyword_matcher.py, src/storage.py, src/telegram_notifier.py) and proofs
about its specified behaviour.

Conventions of the embedding:
* Python `datetime` timestamps are modelled as `Int` seconds; `timedelta(days=d)`
  is `d * 86400`.
* A Python dict with string keys is modelled as an association list
  `List (String × _)` with Python's insertion-order update semantics
  (`dictInsert` below).
* Missing dict fields read with `.get(k, '')` are modelled as the empty string.
-/

namespace NewsAlerts

/-- Canonical article shape produced by the normalizers in `news_fetcher.py`. -/
structure Article where
  url : String
  title : String
  description : String
  published : Int
  source : String
  matched_keywords : List String := []
deriving Repr, DecidableEq

/-! ## Source aggregator (`NewsFetcher.fetch_all_articles`) -/

/-- The deduplication loop of `NewsFetcher.fetch_all_articles`
(news_fetcher.py lines 291-299): walk the combined list keeping a set of
seen URLs, appending an article only when its URL is unseen.  The `seen`
set is modelled as the list of URLs already seen. -/
def dedupByUrl (seen : List String) : List Article → List Article
  | [] => []
  | a :: rest =>
    if a.url ∈ seen then dedupByUrl seen rest
    else a :: dedupByUrl (a.url :: seen) rest

/-- `NewsFetcher.fetch_all_articles` (news_fetcher.py lines 269-303): the
per-RSS-source normalized article lists (in source-list order) are
concatenated, the NewsAPI articles are appended after them, and the
combined list is deduplicated by URL keeping first occurrences. -/
def fetch_all_articles (rssResults : List (List Article)) (apiResults : List Article) :
    List Article :=
  dedupByUrl [] (rssResults.flatten ++ apiResults)

/-- A concrete duplicated article list: the same URL from two RSS sources. -/
def exRssResults : List (List Article) :=
  [[{ url := "u1", title := "A", description := "", published := 5,
      source := "VentureBeat" }],
   [{ url := "u1", title := "A copy", description := "", published := 4,
      source := "Ars Technica" }]]

/-- A concrete API result list for the C1 witness. -/
def exApiResults : List Article :=
  [{ url := "u2", title := "B", description := "", published := 3,
     source := "NewsAPI" }]

/-! ## Notification tracker (`src/storage.py`) -/

/-- One value of the persisted store: `{'sent_at': ..., 'title': ..., 'url': ...}`
as written by `mark_as_sent` / `mark_multiple_as_sent` (storage.py lines
104-108 and 126-130). -/
structure SentRecord where
  sent_at : Int
  title : String
  url : String
deriving Repr, DecidableEq

/-- The persisted store: a JSON object mapping article URL to its record,
modelled as an association list in insertion order. -/
abbrev Store := List (String × SentRecord)

/-- Python dict update `d[k] = v`: overwrite in place when the key exists,
else append at the end (insertion order preserved).  The store is a parsed
JSON object, so its keys are unique and overwrite-in-place is
replace-the-first-occurrence. -/
def dictInsert (store : Store) (k : String) (v : SentRecord) : Store :=
  match store with
  | [] => [(k, v)]
  | p :: rest => if p.1 == k then (k, v) :: rest else p :: dictInsert rest k v

/-- `ArticleStorage.is_sent` (storage.py lines 77-88): membership of the URL
in the loaded store. -/
def is_sent (store : Store) (article_url : String) : Bool :=
  store.any (fun p => p.1 == article_url)

/-- `ArticleStorage.mark_as_sent` (storage.py lines 90-111): skip when the
article URL is missing/empty, else insert the record keyed by the URL. -/
def mark_as_sent (store : Store) (article : Article) (now : Int) : Store :=
  if article.url = "" then store
  else dictInsert store article.url ⟨now, article.title, article.url⟩

/-- `ArticleStorage.mark_multiple_as_sent` (storage.py lines 113-133): one
timestamp `now` is taken once, then every article with a non-empty URL is
inserted keyed by its URL. -/
def mark_multiple_as_sent (store : Store) (articles : List Article) (now : Int) : Store :=
  articles.foldl
    (fun s a => if a.url = "" then s else dictInsert s a.url ⟨now, a.title, a.url⟩)
    store

/-- `timedelta(days=1)` in seconds. -/
def secondsPerDay : Int := 86400

/-- `ArticleStorage.cleanup_old_entries` (storage.py lines 135-162): keep the
records with `sent_at > cutoff` where `cutoff = now - days`; return the new
store contents, the removed count, and whether the store file was rewritten
(the save happens only when `removed_count > 0`; otherwise the persisted
contents stay as they were). -/
def cleanup_old_entries (store : Store) (days : Int) (now : Int) : Store × Nat × Bool :=
  let cutoff := now - days * secondsPerDay
  let kept := store.filter (fun p => cutoff < p.2.sent_at)
  let removed := store.length - kept.length
  if 0 < removed then (kept, removed, true) else (store, removed, false)

/-- `ArticleStorage.get_stats` (storage.py lines 164-186), with each dict value
modelled as an `Option` (Python values may be `None`): the code returns
`{'total': 0, 'oldest': None, 'newest': None}` on an empty store, else the
count and the `min`/`max` of the `sent_at` dates. -/
def get_stats (store : Store) : Option Nat × Option Int × Option Int :=
  if store.isEmpty then (some 0, none, none)
  else
    ((some store.length),
     (store.map (fun p => p.2.sent_at)).min?,
     (store.map (fun p => p.2.sent_at)).max?)

/-! ## Orchestrator commit and cleanup steps (`main.py`) -/

/-- The commit step of `main` (main.py lines 107-115): mark the delivered
batch as sent only when `send_digest` reported success. -/
def commitStep (store : Store) (success : Bool) (batch : List Article) (now : Int) : Store :=
  if success then mark_multiple_as_sent store batch now else store

/-- The store contents after one run's commit and cleanup steps
(main.py lines 107-119): step 8 commits on success only, step 9 prunes
entries older than the retention window regardless of delivery outcome. -/
def runStore (store : Store) (success : Bool) (batch : List Article) (now : Int)
    (days : Int) : Store :=
  (cleanup_old_entries (commitStep store success batch now) days now).1

/-- A persisted store holding one record last sent at time 0, used to exhibit
the effect of retention cleanup on a failed-delivery run. -/
def exOldStore : Store := [("old", ⟨0, "old title", "old"⟩)]

/-- A store with one record whose `sent_at` equals the retention cutoff
exactly. -/
def exBoundaryStore : Store := [("b", ⟨0, "boundary", "b"⟩)]

/-! ## Load/save failure semantics (storage.py lines 38-75) -/

/-- `ArticleStorage.load_sent_articles` (storage.py lines 38-60): the store
file is read and decoded; the decode outcome is the argument.  Any decode or
read error is caught, logged, and turned into the empty dict - the function
always returns a store and never re-raises. -/
def load_sent_articles (fileContents : Except String Store) : Store :=
  match fileContents with
  | .ok s => s
  | .error _ => []

/-- `ArticleStorage.save_sent_articles` (storage.py lines 62-75): attempt the
file write (outcome `writeOk`); on failure the exception is logged and then
re-raised, so the caller sees the error; on success the saved data is the new
persisted contents. -/
def save_sent_articles (writeOk : Bool) (data : Store) : Except String Store :=
  if writeOk then .ok data else .error "save failed"

/-- The commit path of `main` step 8 with the save outcome made explicit:
`mark_multiple_as_sent` builds the new store and saves it. -/
def commitWithSave (store : Store) (batch : List Article) (now : Int)
    (writeOk : Bool) : Except String Store :=
  save_sent_articles writeOk (mark_multiple_as_sent store batch now)

/-- The persisted file contents after a fallible save: unchanged when the
save raised. -/
def persistedAfter (old : Store) (r : Except String Store) : Store :=
  match r with
  | .ok s => s
  | .error _ => old

/-! ## Store key invariant (C10) -/

/-- Look a key up in the store (Python `store[k]` / `k in store`). -/
def dictGet (store : Store) (k : String) : Option SentRecord :=
  (store.find? (fun p => p.1 == k)).map (fun p => p.2)

/-- One mutating operation on `ArticleStorage`. -/
inductive StorageOp where
  | mark (article : Article) (now : Int)
  | markMany (articles : List Article) (now : Int)
  | cleanup (days : Int) (now : Int)

/-- Apply one storage operation to the persisted store. -/
def applyOp (store : Store) : StorageOp → Store
  | .mark a now => mark_as_sent store a now
  | .markMany l now => mark_multiple_as_sent store l now
  | .cleanup days now => (cleanup_old_entries store days now).1

/-- The persisted store after a sequence of operations, starting from the
empty store that `ensure_storage_exists` creates on first run. -/
def applyOps (ops : List StorageOp) : Store :=
  ops.foldl applyOp []

/-- Every record of the store is keyed by its own `url` field. -/
def StoreKeyInv (store : Store) : Prop :=
  ∀ p ∈ store, p.2.url = p.1

/-! ## Digest notifier (`src/telegram_notifier.py`) -/

/-- Outcome of one `bot.send_message` call: success, a `TelegramError`
(transient, retried), or any other exception (unexpected, not retried). -/
inductive SendOutcome where
  | success
  | telegramError
  | unexpectedError
deriving Repr, DecidableEq

/-- Result of `_send_message_async` as seen by the caller: the reported
boolean, the backoff delays slept (seconds, in order), and the number of
`send_message` attempts made. -/
structure SendResult where
  ok : Bool
  delays : List Nat
  attempts : Nat
deriving Repr, DecidableEq

/-- The retry loop of `_send_message_async` (telegram_notifier.py lines
108-135): `attempt` is the loop index and `fuel` the iterations left
(`retry_count - attempt`).  Success returns `True`; a `TelegramError` with
`attempt < retry_count - 1` sleeps `2 ** attempt` seconds and continues, else
returns `False`; an unexpected error returns `False` at once; falling out of
the loop returns `False`. -/
def sendLoop (outcome : Nat → SendOutcome) (retryCount : Nat) :
    Nat → Nat → SendResult
  | 0, _ => ⟨false, [], 0⟩
  | fuel + 1, attempt =>
    match outcome attempt with
    | .success => ⟨true, [], 1⟩
    | .unexpectedError => ⟨false, [], 1⟩
    | .telegramError =>
      if attempt < retryCount - 1 then
        let r := sendLoop outcome retryCount fuel (attempt + 1)
        ⟨r.ok, 2 ^ attempt :: r.delays, r.attempts + 1⟩
      else ⟨false, [], 1⟩

/-- `_send_message_async` (telegram_notifier.py lines 93-135): with the bot or
chat id missing the send is skipped and `False` reported with no attempt;
else the retry loop runs from attempt 0. -/
def sendMessageAsync (configured : Bool) (outcome : Nat → SendOutcome)
    (retryCount : Nat) : SendResult :=
  if configured then sendLoop outcome retryCount retryCount 0 else ⟨false, [], 0⟩

/-- `send_digest` (telegram_notifier.py lines 137-161): an empty article list
is skipped with `False`; otherwise the digest goes through
`_send_message_async` with the default `retry_count = 3`. -/
def send_digest (configured : Bool) (outcome : Nat → SendOutcome)
    (articles : List Article) : SendResult :=
  if articles.isEmpty then ⟨false, [], 0⟩
  else sendMessageAsync configured outcome 3

/-- An attempt oracle for the C6 witness: the first attempt hits a transient
error, the second succeeds. -/
def exOutcome : Nat → SendOutcome :=
  fun i => if i = 0 then .telegramError else .success

/-! ## Orchestrator sort and cap (main.py lines 94-98) -/

/-- `MAX_ARTICLES_IN_DIGEST` (config.py line 49). -/
def MAX_ARTICLES_IN_DIGEST : Nat := 5

/-- Stable insertion for descending order: the new element (earlier in the
original list) goes before the first element not strictly newer than it, so
equal keys keep original relative order - the behaviour of Python's stable
`list.sort(key=..., reverse=True)` in main.py line 95. -/
def insertDesc (a : Article) : List Article → List Article
  | [] => [a]
  | b :: l => if b.published ≤ a.published then a :: b :: l else b :: insertDesc a l

/-- Stable sort by `published` descending (main.py line 95). -/
def sortDesc (l : List Article) : List Article :=
  l.foldr insertDesc []

/-- Steps 5-6 of `main` (main.py lines 94-98): sort the new articles by
publication date, newest first (stable), then take the top
`MAX_ARTICLES_IN_DIGEST`. -/
def articles_to_send (new_articles : List Article) : List Article :=
  (sortDesc new_articles).take MAX_ARTICLES_IN_DIGEST

/-- Three articles published at t-1, t-3, t-2 (t = 100). -/
def exSortInput : List Article :=
  [{ url := "a", title := "A", description := "", published := 99, source := "s" },
   { url := "b", title := "B", description := "", published := 97, source := "s" },
   { url := "c", title := "C", description := "", published := 98, source := "s" }]

/-! ## Keyword matcher (`src/keyword_matcher.py`)

The compiled pattern is `re.compile(r'\\b' + re.escape(kw) + r'\\b',
re.IGNORECASE)` (keyword_matcher.py lines 28-31) and matching is
`pattern.search(title + " " + description)` (lines 45-54).  The regex word
character class `\\w` and `re.IGNORECASE` case folding are modelled for the
ASCII texts this system processes. -/

/-- Regex `\\w`: ASCII letter, digit or underscore (by character code). -/
def isWordChar (c : Char) : Bool :=
  (65 ≤ c.toNat && c.toNat ≤ 90) || (97 ≤ c.toNat && c.toNat ≤ 122) ||
  (48 ≤ c.toNat && c.toNat ≤ 57) || c.toNat == 95

/-- Whether the character of `text` at position `j` is a word character
(positions outside the text count as non-word). -/
def wordAt (text : List Char) (j : Nat) : Bool :=
  match text.get? j with
  | some c => isWordChar c
  | none => false

/-- Regex `\\b` at pattern position `j`: exactly one of the two adjacent
sides is a word character; before position 0 sits the non-word start of
text. -/
def boundaryAt (text : List Char) : Nat → Bool
  | 0 => wordAt text 0
  | i + 1 => wordAt text i != wordAt text (i + 1)

/-- Case-insensitive prefix test (`re.IGNORECASE` case folding): `kw` matches
the start of `s` character by character. -/
def matchesFrom : List Char → List Char → Bool
  | [], _ => true
  | _ :: _, [] => false
  | k :: ks, t :: ts => (k.toLower == t.toLower) && matchesFrom ks ts

/-- Case-insensitive occurrence of `kw` at offset `i` of `text`. -/
def matchesAt (kw text : List Char) (i : Nat) : Bool :=
  matchesFrom kw (text.drop i)

/-- `pattern.search` for the compiled pattern `\\b<kw>\\b` with
`re.IGNORECASE`: some offset carries a word boundary, the keyword, and a word
boundary after it. -/
def kwSearch (kw text : List Char) : Bool :=
  (List.range (text.length + 1)).any (fun i =>
    boundaryAt text i && matchesAt kw text i && boundaryAt text (i + kw.length))

/-- The text searched by `KeywordMatcher.find_matches` (keyword_matcher.py
line 48): title and description concatenated with a space. -/
def articleText (a : Article) : List Char :=
  (a.title ++ " " ++ a.description).data

/-- `KeywordMatcher.find_matches` (keyword_matcher.py lines 35-57): the set of
configured keywords (original casing) whose pattern matches the article
text, as the filtered keyword list. -/
def find_matches (keywords : List String) (a : Article) : List String :=
  keywords.filter (fun kw => kwSearch kw.data (articleText a))

/-- `KeywordMatcher.filter_articles` (keyword_matcher.py lines 59-83): keep
the articles with at least one keyword match, each annotated with its matched
keywords. -/
def filter_articles (keywords : List String) : List Article → List Article
  | [] => []
  | a :: rest =>
    if (find_matches keywords a).isEmpty then filter_articles keywords rest
    else { a with matched_keywords := find_matches keywords a } ::
      filter_articles keywords rest

/-- Modelled from the spec (the claim's own wording of whole-word matching,
for comparison with the regex semantics of `kwSearch`): the keyword occurs
case-insensitively at some offset that is not preceded by a word character
(so not in the middle of a larger word) and not followed by one. -/
def specWholeWord (kw text : List Char) : Bool :=
  (List.range (text.length + 1)).any (fun i =>
    matchesAt kw text i &&
    (decide (i = 0) || !wordAt text (i - 1)) &&
    !wordAt text (i + kw.length))

/-! ## Theorems -/

theorem dedupByUrl_sublist (seen : List String) (l : List Article) :
    List.Sublist (dedupByUrl seen l) l := by
  induction l generalizing seen with
  | nil => simp [dedupByUrl]
  | cons a rest ih =>
    unfold dedupByUrl
    split
    · exact (ih seen).trans (List.sublist_cons_self a rest)
    · exact (ih (a.url :: seen)).cons₂ a

theorem dedupByUrl_countP_of_seen (seen : List String) (l : List Article) (u : String)
    (hu : u ∈ seen) :
    (dedupByUrl seen l).countP (fun a => a.url == u) = 0 := by
  induction l generalizing seen with
  | nil => simp [dedupByUrl]
  | cons a rest ih =>
    unfold dedupByUrl
    by_cases hmem : a.url ∈ seen
    · rw [if_pos hmem]
      exact ih seen hu
    · rw [if_neg hmem, List.countP_cons]
      have ha : (a.url == u) = false := by
        simp only [beq_eq_false_iff_ne, ne_eq]
        rintro rfl
        exact hmem hu
      simp only [ha, if_false, Nat.add_zero]
      exact ih (a.url :: seen) (List.mem_cons_of_mem _ hu)

theorem dedupByUrl_countP_of_mem (seen : List String) (l : List Article) (u : String)
    (hu : u ∉ seen) (hl : 0 < l.countP (fun a => a.url == u)) :
    (dedupByUrl seen l).countP (fun a => a.url == u) = 1 := by
  induction l generalizing seen with
  | nil => simp at hl
  | cons a rest ih =>
    unfold dedupByUrl
    by_cases hau : a.url = u
    · subst hau
      rw [if_neg hu, List.countP_cons]
      simp only [beq_self_eq_true, if_true]
      rw [dedupByUrl_countP_of_seen (a.url :: seen) rest a.url (List.mem_cons_self _ _)]
    · have ha : (a.url == u) = false := by simp [hau]
      have hl' : 0 < rest.countP (fun a => a.url == u) := by
        rw [List.countP_cons] at hl
        simpa [ha] using hl
      by_cases hmem : a.url ∈ seen
      · rw [if_pos hmem]
        exact ih seen hu hl'
      · rw [if_neg hmem, List.countP_cons]
        simp only [ha, if_false, Nat.add_zero]
        exact ih (a.url :: seen) (by simp [hu, Ne.symm hau]) hl'

theorem dedupByUrl_find?_eq (seen : List String) (l : List Article) (u : String)
    (hu : u ∉ seen) :
    (dedupByUrl seen l).find? (fun a => a.url == u) = l.find? (fun a => a.url == u) := by
  induction l generalizing seen with
  | nil => simp [dedupByUrl]
  | cons a rest ih =>
    unfold dedupByUrl
    by_cases hau : a.url = u
    · subst hau
      rw [if_neg hu]
      simp [List.find?]
    · have ha : (a.url == u) = false := by simp [hau]
      by_cases hmem : a.url ∈ seen
      · rw [if_pos hmem, ih seen hu, List.find?, ha]
      · rw [if_neg hmem, List.find?, ha, List.find?, ha]
        exact ih (a.url :: seen) (by simp [hu, Ne.symm hau])

/-- C1: For every list of raw source records containing two or more entries with
the same locator, `fetch_all_articles` output contains exactly one article with
that locator, equal to the first-seen normalized form, and output order
preserves first-seen order across sources: the output is a sublist of the
combined list, which lists all RSS sources (in source-list order) before the
API source. -/
theorem fetch_all_articles_dedup (rssResults : List (List Article))
    (apiResults : List Article) (u : String)
    (hdup : 2 ≤ (rssResults.flatten ++ apiResults).countP (fun a => a.url == u)) :
    (fetch_all_articles rssResults apiResults).countP (fun a => a.url == u) = 1 ∧
    (fetch_all_articles rssResults apiResults).find? (fun a => a.url == u) =
      (rssResults.flatten ++ apiResults).find? (fun a => a.url == u) ∧
    List.Sublist (fetch_all_articles rssResults apiResults)
      (rssResults.flatten ++ apiResults) := by
  refine ⟨?_, ?_, ?_⟩
  · exact dedupByUrl_countP_of_mem [] _ u (by simp) (by omega)
  · exact dedupByUrl_find?_eq [] _ u (by simp)
  · exact dedupByUrl_sublist [] _

/-- Witness for C1 at a concrete input: two sources share an article URL. -/
theorem fetch_all_articles_dedup_witness :
    2 ≤ (exRssResults.flatten ++ exApiResults).countP (fun a => a.url == "u1") ∧
    (fetch_all_articles exRssResults exApiResults).countP (fun a => a.url == "u1") = 1 := by
  refine ⟨by decide, ?_⟩
  exact (fetch_all_articles_dedup exRssResults exApiResults "u1" (by decide)).1

theorem is_sent_filter_false (store : Store) (q : String × SentRecord → Bool) (x : String)
    (h : is_sent store x = false) : is_sent (store.filter q) x = false := by
  simp only [is_sent, List.any_eq_true, not_exists, List.any_eq_false] at h ⊢
  intro p hp
  exact h p (List.mem_of_mem_filter hp)

theorem is_sent_cleanup_false (store : Store) (days now : Int) (x : String)
    (h : is_sent store x = false) :
    is_sent (cleanup_old_entries store days now).1 x = false := by
  unfold cleanup_old_entries
  dsimp only
  split
  · exact is_sent_filter_false store _ x h
  · exact h

theorem is_sent_cleanup_true_of_live (store : Store) (days now : Int)
    (p : String × SentRecord) (hp : p ∈ store)
    (hl : now - days * secondsPerDay < p.2.sent_at) :
    is_sent (cleanup_old_entries store days now).1 p.1 = true := by
  unfold cleanup_old_entries
  dsimp only
  split
  · simp only [is_sent, List.any_eq_true]
    exact ⟨p, List.mem_filter.mpr ⟨hp, by simpa using hl⟩, by simp⟩
  · simp only [is_sent, List.any_eq_true]
    exact ⟨p, hp, by simp⟩

/-- C2 counterexample: on a run whose delivery failed (so nothing is
committed), the retention cleanup of step 9 still prunes a record older than
the retention window, so `is_sent` does not return the same value before and
after this non-committing run for every key: the key "old" flips from true to
false although no successful `mark_sent` occurred. -/
theorem run_is_sent_counterexample :
    is_sent exOldStore "old" = true ∧
    is_sent (runStore exOldStore false [] (31 * secondsPerDay) 30) "old" = false := by
  decide

/-- C2 (amended): if delivery reports failure the orchestrator commits nothing
to the tracker: the commit step leaves the store unchanged, `is_sent` stays
false after the run for every key (hence every batch article) that was not
already sent, and a change of `is_sent` by the commit step implies the run was
successful; however the retention cleanup of step 9 runs regardless of the
delivery outcome, so on a non-committing run `is_sent` is guaranteed unchanged
only for keys whose record is not older than the retention cutoff. -/
theorem commit_on_failure (store : Store) (batch : List Article) (now days : Int) :
    commitStep store false batch now = store ∧
    (∀ x, is_sent store x = false →
      is_sent (runStore store false batch now days) x = false) ∧
    (∀ p ∈ store, now - days * secondsPerDay < p.2.sent_at →
      is_sent (runStore store false batch now days) p.1 = true) ∧
    (∀ (success : Bool) (x : String),
      is_sent (commitStep store success batch now) x ≠ is_sent store x →
      success = true) := by
  refine ⟨rfl, ?_, ?_, ?_⟩
  · intro x h
    unfold runStore
    rw [show commitStep store false batch now = store from rfl]
    exact is_sent_cleanup_false store days now x h
  · intro p hp hl
    unfold runStore
    rw [show commitStep store false batch now = store from rfl]
    exact is_sent_cleanup_true_of_live store days now p hp hl
  · intro success x h
    cases success with
    | true => rfl
    | false => exact absurd rfl h

/-- Witness for C2 at a concrete input: a key never sent stays unsent across a
failed run, and the commit step of a failed run is the identity. -/
theorem commit_on_failure_witness :
    is_sent exOldStore "unsent" = false ∧
    is_sent (runStore exOldStore false [] 100 30) "unsent" = false := by
  refine ⟨by decide, ?_⟩
  exact (commit_on_failure exOldStore [] 100 30).2.1 "unsent" (by decide)

/-- C3 counterexample: with `now = 30 days` and `retention_days = 30` the
cutoff is time 0; the record with `sent_at = 0` is not strictly older than the
cutoff, yet `cleanup_old_entries` removes it (the code keeps only records with
`sent_at > cutoff`), so "removes exactly the records whose sent_at is older
than (now - retention_days) and no others" fails at this input. -/
theorem cleanup_boundary_counterexample :
    (cleanup_old_entries exBoundaryStore 30 (30 * secondsPerDay)).2.1 = 1 ∧
    exBoundaryStore.countP
      (fun p => p.2.sent_at < 30 * secondsPerDay - 30 * secondsPerDay) = 0 := by
  decide

/-- The removed count of `cleanup_old_entries` counts the records at or
before the cutoff. -/
theorem sub_filter_length_eq_countP (cutoff : Int) (s : Store) :
    s.length - (s.filter (fun p => cutoff < p.2.sent_at)).length =
      s.countP (fun p => p.2.sent_at ≤ cutoff) := by
  induction s with
  | nil => rfl
  | cons a rest ih =>
    have hle := List.Sublist.length_le
      (@List.filter_sublist _
        (fun p : String × SentRecord => decide (cutoff < p.2.sent_at)) rest)
    by_cases h : cutoff < a.2.sent_at
    · have h' : ¬ a.2.sent_at ≤ cutoff := not_le.mpr h
      simp [List.filter_cons, List.countP_cons, h, h']
      omega
    · have h' : a.2.sent_at ≤ cutoff := not_lt.mp h
      simp [List.filter_cons, List.countP_cons, h, h']
      omega

/-- C3 (amended): `cleanup_old_entries retention_days` removes exactly the
records whose `sent_at` is at or before (now - retention_days) - i.e. not
strictly newer than the cutoff - and no others, returns the number removed,
and rewrites the persisted store only when at least one record was removed; a
record with `sent_at = now - 31 days` is removed by `cleanup(30)` and a record
at `now - 29 days` is retained. -/
theorem cleanup_old_entries_spec (store : Store) (days now : Int) :
    (cleanup_old_entries store days now).1 =
      store.filter (fun p => now - days * secondsPerDay < p.2.sent_at) ∧
    (cleanup_old_entries store days now).2.1 =
      store.countP (fun p => p.2.sent_at ≤ now - days * secondsPerDay) ∧
    ((cleanup_old_entries store days now).2.2 = true ↔
      0 < (cleanup_old_entries store days now).2.1) ∧
    (∀ (t u : String) (now' : Int),
      (cleanup_old_entries [(u, ⟨now' - 31 * secondsPerDay, t, u⟩)] 30 now').2.1 = 1) ∧
    (∀ (t u : String) (now' : Int),
      (cleanup_old_entries [(u, ⟨now' - 29 * secondsPerDay, t, u⟩)] 30 now').1 =
        [(u, ⟨now' - 29 * secondsPerDay, t, u⟩)]) := by
  have hkept : ∀ (s : Store) (d n : Int), (cleanup_old_entries s d n).1 =
      s.filter (fun p => n - d * secondsPerDay < p.2.sent_at) := by
    intro s d n
    unfold cleanup_old_entries
    dsimp only
    split
    · rfl
    · rename_i hnot
      have hle : s.length ≤ (s.filter (fun p => n - d * secondsPerDay < p.2.sent_at)).length := by
        omega
    
      exact ((List.filter_sublist s).eq_of_length
        (Nat.le_antisymm (List.Sublist.length_le (List.filter_sublist s)) hle)).symm
  have hcount : ∀ (s : Store) (d n : Int), (cleanup_old_entries s d n).2.1 =
      s.countP (fun p => p.2.sent_at ≤ n - d * secondsPerDay) := by
    intro s d n
    have hrem : (cleanup_old_entries s d n).2.1 =
        s.length - (s.filter (fun p => n - d * secondsPerDay < p.2.sent_at)).length := by
      unfold cleanup_old_entries
      dsimp only
      split
      · rfl
      · rfl
    rw [hrem, sub_filter_length_eq_countP]
  refine ⟨hkept store days now, hcount store days now, ?_, ?_, ?_⟩
  · unfold cleanup_old_entries
    dsimp only
    split
    · rename_i h
      simpa using h
    · rename_i h
      simpa using h
  · intro t u now'
    rw [hcount]
    have h : ((now' : Int) - 31 * secondsPerDay ≤ now' - 30 * secondsPerDay) := by
      simp only [secondsPerDay]
      omega
    simp [h]
  · intro t u now'
    rw [hkept]
    have h : ((now' : Int) - 30 * secondsPerDay < now' - 29 * secondsPerDay) := by
      simp only [secondsPerDay]
      omega
    simp [h]

/-- C5: a load that fails to decode yields the empty store (and, the function
being total into `Store`, never raises to the caller); a failing save is
raised to the caller as an error rather than swallowed, and the persisted
contents then remain the old store, so no article of the batch becomes
"committed" by a failed save. -/
theorem load_save_failure_semantics (e : String) (store : Store)
    (batch : List Article) (now : Int) :
    load_sent_articles (.error e) = ([] : Store) ∧
    commitWithSave store batch now false = .error "save failed" ∧
    (∀ x, is_sent (persistedAfter store (commitWithSave store batch now false)) x =
      is_sent store x) := by
  exact ⟨rfl, rfl, fun _ => rfl⟩

/-! ## Stats (`ArticleStorage.get_stats`) -/

/-- C9 counterexample: on the empty store `get_stats` returns `total = 0` (a
present, non-`None` value), so "all of these fields are None/absent when the
store is empty" fails for the `total` field. -/
theorem get_stats_empty_counterexample :
    (get_stats ([] : Store)).1 = some 0 ∧ (get_stats ([] : Store)).1 ≠ none := by
  decide

/-- C9 (amended): `get_stats` returns `{total, oldest, newest}`; on the empty
store `total` is `0` (not `None`) while `oldest` and `newest` are `None`; on a
non-empty store `total` is the number of records, `oldest` the minimum
`sent_at` and `newest` the maximum `sent_at`. -/
theorem get_stats_spec (store : Store) :
    (store = [] → get_stats store = (some 0, none, none)) ∧
    (store ≠ [] →
      (get_stats store).1 = some store.length ∧
      (∃ m, (get_stats store).2.1 = some m ∧
        m ∈ store.map (fun p => p.2.sent_at) ∧
        ∀ d ∈ store.map (fun p => p.2.sent_at), m ≤ d) ∧
      (∃ m, (get_stats store).2.2 = some m ∧
        m ∈ store.map (fun p => p.2.sent_at) ∧
        ∀ d ∈ store.map (fun p => p.2.sent_at), d ≤ m)) := by
  constructor
  · rintro rfl
    rfl
  · intro hne
    haveI : Std.Antisymm ((· : Int) ≤ ·) := ⟨@fun _ _ h h' => le_antisymm h h'⟩
    have hempty : store.isEmpty = false := by
      cases store with
      | nil => exact absurd rfl hne
      | cons a l => rfl
    have hdne : store.map (fun p => p.2.sent_at) ≠ [] := by
      simpa using hne
    refine ⟨by simp [get_stats, hempty], ?_, ?_⟩
    · obtain ⟨m, hm⟩ : ∃ m, (store.map (fun p => p.2.sent_at)).min? = some m := by
        cases hmin : (store.map (fun p => p.2.sent_at)).min? with
        | none => exact absurd (List.min?_eq_none_iff.mp hmin) hdne
        | some m => exact ⟨m, rfl⟩
      have hprop := (List.min?_eq_some_iff (fun a : Int => le_refl a)
        (fun a b => min_choice a b) (fun a b c => le_min_iff)).mp hm
      exact ⟨m, by simp [get_stats, hempty, hm], hprop.1, hprop.2⟩
    · obtain ⟨m, hm⟩ : ∃ m, (store.map (fun p => p.2.sent_at)).max? = some m := by
        cases hmax : (store.map (fun p => p.2.sent_at)).max? with
        | none => exact absurd (List.max?_eq_none_iff.mp hmax) hdne
        | some m => exact ⟨m, rfl⟩
      have hprop := (List.max?_eq_some_iff (fun a : Int => le_refl a)
        (fun a b => max_choice a b) (fun a b c => max_le_iff)).mp hm
      exact ⟨m, by simp [get_stats, hempty, hm], hprop.1, hprop.2⟩

/-- Witness for C9 at concrete stores: the empty-store branch and the
non-empty-store branch of `get_stats_spec`. -/
theorem get_stats_spec_witness :
    get_stats ([] : Store) = (some 0, none, none) ∧
    (get_stats exOldStore).1 = some 1 := by
  refine ⟨(get_stats_spec ([] : Store)).1 rfl, ?_⟩
  have h := (get_stats_spec exOldStore).2 (by decide)
  simpa using h.1

theorem dictInsert_nil (k : String) (v : SentRecord) : dictInsert [] k v = [(k, v)] := rfl

theorem dictInsert_cons (q : String × SentRecord) (rest : Store) (k : String)
    (v : SentRecord) :
    dictInsert (q :: rest) k v =
      if q.1 == k then (k, v) :: rest else q :: dictInsert rest k v := rfl

theorem mark_multiple_cons (store : Store) (a : Article) (rest : List Article)
    (now : Int) :
    mark_multiple_as_sent store (a :: rest) now =
      mark_multiple_as_sent
        (if a.url = "" then store else dictInsert store a.url ⟨now, a.title, a.url⟩)
        rest now := rfl

theorem storeKeyInv_dictInsert (store : Store) (k : String) (v : SentRecord)
    (hinv : StoreKeyInv store) (hv : v.url = k) :
    StoreKeyInv (dictInsert store k v) := by
  suffices h : ∀ s : Store, StoreKeyInv s → StoreKeyInv (dictInsert s k v) from
    h store hinv
  intro s
  induction s with
  | nil =>
    intro _ p hp
    rw [dictInsert_nil] at hp
    rw [List.mem_singleton.mp hp]
    exact hv
  | cons q rest ih =>
    intro hs
    rw [dictInsert_cons]
    by_cases hqk : q.1 == k
    · rw [if_pos hqk]
      intro p hp
      rcases List.mem_cons.mp hp with rfl | hmem
      · exact hv
      · exact hs p (List.mem_cons_of_mem q hmem)
    · rw [if_neg hqk]
      intro p hp
      rcases List.mem_cons.mp hp with hpq | hmem
      · rw [hpq]
        exact hs q (List.mem_cons_self q rest)
      · exact ih (fun r hr => hs r (List.mem_cons_of_mem q hr)) p hmem

theorem storeKeyInv_mark_as_sent (store : Store) (a : Article) (now : Int)
    (hinv : StoreKeyInv store) : StoreKeyInv (mark_as_sent store a now) := by
  unfold mark_as_sent
  split
  · exact hinv
  · exact storeKeyInv_dictInsert store a.url _ hinv rfl

theorem storeKeyInv_mark_multiple (store : Store) (batch : List Article) (now : Int)
    (hinv : StoreKeyInv store) : StoreKeyInv (mark_multiple_as_sent store batch now) := by
  induction batch generalizing store with
  | nil => exact hinv
  | cons a rest ih =>
    rw [mark_multiple_cons]
    by_cases h : a.url = ""
    · rw [if_pos h]
      exact ih store hinv
    · rw [if_neg h]
      exact ih _ (storeKeyInv_dictInsert store a.url _ hinv rfl)

theorem storeKeyInv_cleanup (store : Store) (days now : Int)
    (hinv : StoreKeyInv store) : StoreKeyInv (cleanup_old_entries store days now).1 := by
  unfold cleanup_old_entries
  dsimp only
  split
  · intro p hp
    exact hinv p (List.mem_of_mem_filter hp)
  · exact hinv

theorem is_sent_dictInsert (store : Store) (k : String) (v : SentRecord) (x : String) :
    is_sent (dictInsert store k v) x = (is_sent store x || k == x) := by
  induction store with
  | nil => simp [dictInsert_nil, is_sent]
  | cons q rest ih =>
    rw [dictInsert_cons]
    by_cases hqk : q.1 == k
    · rw [if_pos hqk]
      have hq : q.1 = k := by simpa using hqk
      simp only [is_sent, List.any_cons, hq]
      cases k == x <;> cases rest.any (fun p => p.1 == x) <;> simp
    · rw [if_neg hqk]
      simp only [is_sent, List.any_cons] at ih ⊢
      rw [ih]
      cases q.1 == x <;> cases k == x <;>
        cases rest.any (fun p => p.1 == x) <;> simp

theorem is_sent_mark_multiple (store : Store) (batch : List Article) (now : Int)
    (x : String) :
    is_sent (mark_multiple_as_sent store batch now) x =
      (is_sent store x || batch.any (fun a => a.url == x && !(a.url == ""))) := by
  induction batch generalizing store with
  | nil => simp [mark_multiple_as_sent]
  | cons a rest ih =>
    rw [mark_multiple_cons]
    by_cases h : a.url = ""
    · rw [if_pos h, ih, List.any_cons]
      simp [h]
    · rw [if_neg h, ih, is_sent_dictInsert, List.any_cons]
      have h' : (a.url == "") = false := by simp [h]
      simp only [h', Bool.not_false, Bool.and_true]
      cases is_sent store x <;> cases a.url == x <;>
        cases rest.any (fun a => a.url == x && !(a.url == "")) <;> simp

theorem dictGet_dictInsert_self (store : Store) (k : String) (v : SentRecord) :
    dictGet (dictInsert store k v) k = some v := by
  induction store with
  | nil => simp [dictInsert_nil, dictGet]
  | cons q rest ih =>
    rw [dictInsert_cons]
    by_cases hqk : q.1 == k
    · rw [if_pos hqk]
      simp [dictGet]
    · rw [if_neg hqk]
      simpa [dictGet, hqk] using ih

theorem dictGet_dictInsert_ne (store : Store) (k x : String) (v : SentRecord)
    (hx : x ≠ k) :
    dictGet (dictInsert store k v) x = dictGet store x := by
  induction store with
  | nil =>
    simp [dictInsert_nil, dictGet, Ne.symm hx]
  | cons q rest ih =>
    rw [dictInsert_cons]
    by_cases hqk : q.1 == k
    · rw [if_pos hqk]
      have hq : q.1 = k := by simpa using hqk
      simp [dictGet, hq, Ne.symm hx]
    · rw [if_neg hqk]
      by_cases hqx : q.1 == x
      · simp [dictGet, hqx]
      · simpa [dictGet, hqx] using ih

/-- A record stored under `u` with the pass timestamp survives the rest of a
`mark_multiple_as_sent` pass with timestamp and key field intact. -/
theorem mark_multiple_preserves_stamp (batch : List Article) (store : Store)
    (now : Int) (u : String) (r : SentRecord)
    (hget : dictGet store u = some r) (hr : r.sent_at = now ∧ r.url = u) :
    ∃ r', dictGet (mark_multiple_as_sent store batch now) u = some r' ∧
      r'.sent_at = now ∧ r'.url = u := by
  induction batch generalizing store r with
  | nil => exact ⟨r, hget, hr⟩
  | cons a rest ih =>
    rw [mark_multiple_cons]
    by_cases h : a.url = ""
    · rw [if_pos h]
      exact ih store r hget hr
    · rw [if_neg h]
      by_cases hau : a.url = u
      · subst hau
        exact ih _ ⟨now, a.title, a.url⟩ (dictGet_dictInsert_self store a.url _) ⟨rfl, rfl⟩
      · refine ih _ r ?_ hr
        rw [dictGet_dictInsert_ne store a.url u _ (Ne.symm hau)]
        exact hget

/-- Every article of the batch with a non-empty URL ends the
`mark_multiple_as_sent` pass stored under its URL with `sent_at = now`. -/
theorem mark_multiple_stamps (store : Store) (batch : List Article) (now : Int) :
    ∀ a ∈ batch, a.url ≠ "" →
      ∃ r, dictGet (mark_multiple_as_sent store batch now) a.url = some r ∧
        r.sent_at = now ∧ r.url = a.url := by
  induction batch generalizing store with
  | nil =>
    intro a ha
    simp at ha
  | cons b rest ih =>
    intro a ha hne
    rw [mark_multiple_cons]
    rcases List.mem_cons.mp ha with rfl | hmem
    · rw [if_neg hne]
      exact mark_multiple_preserves_stamp rest _ now a.url ⟨now, a.title, a.url⟩
        (dictGet_dictInsert_self store a.url _) ⟨rfl, rfl⟩
    · by_cases h : b.url = ""
      · rw [if_pos h]
        exact ih store a hmem hne
      · rw [if_neg h]
        exact ih _ a hmem hne

/-- C10: starting from the empty store created on first run, after any
sequence of `mark_as_sent`, `mark_multiple_as_sent` and `cleanup_old_entries`
operations every record is stored under a key equal to its own `url` field;
`mark_multiple_as_sent` inserts no record for an article whose URL is
missing/empty (the key set grows exactly by the non-empty batch URLs), and
every record it does insert carries the single shared timestamp `now`. -/
theorem storage_key_invariant (ops : List StorageOp) (store : Store)
    (batch : List Article) (now : Int) (hinv : StoreKeyInv store) :
    StoreKeyInv (applyOps ops) ∧
    StoreKeyInv (mark_multiple_as_sent store batch now) ∧
    (∀ x, is_sent (mark_multiple_as_sent store batch now) x =
      (is_sent store x || batch.any (fun a => a.url == x && !(a.url == "")))) ∧
    (∀ a ∈ batch, a.url ≠ "" →
      ∃ r, dictGet (mark_multiple_as_sent store batch now) a.url = some r ∧
        r.sent_at = now ∧ r.url = a.url) := by
  refine ⟨?_, storeKeyInv_mark_multiple store batch now hinv,
    fun x => is_sent_mark_multiple store batch now x,
    mark_multiple_stamps store batch now⟩
  have hbase : StoreKeyInv ([] : Store) := by
    intro p hp
    simp at hp
  suffices h : ∀ (s : Store), StoreKeyInv s → StoreKeyInv (ops.foldl applyOp s) from
    h [] hbase
  induction ops with
  | nil => exact fun s hs => hs
  | cons op rest ihop =>
    intro s hs
    rw [List.foldl_cons]
    apply ihop
    cases op with
    | mark a n => exact storeKeyInv_mark_as_sent s a n hs
    | markMany l n => exact storeKeyInv_mark_multiple s l n hs
    | cleanup d n => exact storeKeyInv_cleanup s d n hs

/-- Witness for C10 at a concrete input: a mixed batch whose first article has
an empty URL (skipped) and whose second is stored stamped with the shared
timestamp. -/
theorem storage_key_invariant_witness :
    ∃ r, dictGet
        (mark_multiple_as_sent []
          [{ url := "", title := "skipped", description := "", published := 0,
             source := "s" },
           { url := "u9", title := "kept", description := "", published := 0,
             source := "s" }] 42) "u9" = some r ∧
      r.sent_at = 42 ∧ r.url = "u9" := by
  have h := storage_key_invariant [] ([] : Store)
    [{ url := "", title := "skipped", description := "", published := 0,
       source := "s" },
     { url := "u9", title := "kept", description := "", published := 0,
       source := "s" }] 42 (by intro p hp; simp at hp)
  exact h.2.2.2
    { url := "u9", title := "kept", description := "", published := 0, source := "s" }
    (by decide) (by decide)

theorem sendLoop_all_telegram (outcome : Nat → SendOutcome) (rc : Nat)
    (h : ∀ i, i < rc → outcome i = .telegramError) :
    ∀ fuel attempt, attempt + fuel = rc →
      sendLoop outcome rc fuel attempt =
        ⟨false, (List.range' attempt (fuel - 1)).map (fun i => 2 ^ i), fuel⟩ := by
  intro fuel
  induction fuel with
  | zero =>
    intro attempt _
    rfl
  | succ g ih =>
    intro attempt hsum
    unfold sendLoop
    rw [h attempt (by omega)]
    dsimp only
    by_cases hlt : attempt < rc - 1
    · rw [if_pos hlt, ih (attempt + 1) (by omega)]
      have hr : List.range' attempt (g + 1 - 1) =
          attempt :: List.range' (attempt + 1) (g - 1) := by
        have h1 : g + 1 - 1 = (g - 1) + 1 := by omega
        rw [h1, List.range'_succ]
      rw [hr]
      rfl
    · rw [if_neg hlt]
      have hg : g = 0 := by omega
      subst hg
      rfl

theorem sendLoop_stops (outcome : Nat → SendOutcome) (rc k : Nat)
    (htrans : ∀ i, i < k → outcome i = .telegramError)
    (hk : outcome k ≠ .telegramError) (hklt : k < rc) :
    ∀ fuel attempt, attempt + fuel = rc → attempt ≤ k →
      sendLoop outcome rc fuel attempt =
        ⟨decide (outcome k = .success),
         (List.range' attempt (k - attempt)).map (fun i => 2 ^ i),
         k - attempt + 1⟩ := by
  intro fuel
  induction fuel with
  | zero =>
    intro attempt hsum hak
    omega
  | succ g ih =>
    intro attempt hsum hak
    unfold sendLoop
    by_cases heq : attempt = k
    · subst heq
      cases hout : outcome attempt with
      | success => simp [hout]
      | telegramError => exact absurd hout hk
      | unexpectedError => simp [hout]
    · have halt : attempt < k := by omega
      rw [htrans attempt halt]
      dsimp only
      have hlt : attempt < rc - 1 := by omega
      rw [if_pos hlt, ih (attempt + 1) (by omega) (by omega)]
      have hrange : List.range' attempt (k - attempt) =
          attempt :: List.range' (attempt + 1) (k - (attempt + 1)) := by
        have h1 : k - attempt = (k - (attempt + 1)) + 1 := by omega
        rw [h1, List.range'_succ]
      rw [hrange]
      have h2 : k - attempt + 1 = (k - (attempt + 1) + 1) + 1 := by omega
      rw [h2]
      rfl

theorem sendLoop_delays_powers (outcome : Nat → SendOutcome) (rc : Nat) :
    ∀ fuel attempt, ∃ n,
      (sendLoop outcome rc fuel attempt).delays =
        (List.range' attempt n).map (fun i => 2 ^ i) := by
  intro fuel
  induction fuel with
  | zero =>
    intro attempt
    exact ⟨0, rfl⟩
  | succ g ih =>
    intro attempt
    unfold sendLoop
    cases outcome attempt with
    | success => exact ⟨0, rfl⟩
    | unexpectedError => exact ⟨0, rfl⟩
    | telegramError =>
      by_cases hlt : attempt < rc - 1
      · rw [if_pos hlt]
        obtain ⟨n, hn⟩ := ih (attempt + 1)
        refine ⟨n + 1, ?_⟩
        dsimp only
        rw [hn, List.range'_succ]
        rfl
      · rw [if_neg hlt]
        exact ⟨0, rfl⟩

/-- C6: for every delivery attempt sequence, the notifier (i) retries
transient transport errors up to the configured attempt count and, when every
attempt hits a transient error, reports `false` - a returned result, not a
raised error - after `retry_count` attempts with backoff delays
1, 2, 4, ... seconds; (ii) stops at the first successful attempt, reporting
`true`; (iii) aborts at the first non-transient (unexpected) error, reporting
`false` with no further attempt and no further backoff; and (iv) the backoff
delays double from each sleep to the next. -/
theorem notifier_retry_semantics (outcome : Nat → SendOutcome) (rc k : Nat) :
    ((∀ i, i < rc → outcome i = .telegramError) →
      sendMessageAsync true outcome rc =
        ⟨false, (List.range (rc - 1)).map (fun i => 2 ^ i), rc⟩) ∧
    ((∀ i, i < k → outcome i = .telegramError) → outcome k = .success → k < rc →
      sendMessageAsync true outcome rc =
        ⟨true, (List.range k).map (fun i => 2 ^ i), k + 1⟩) ∧
    ((∀ i, i < k → outcome i = .telegramError) → outcome k = .unexpectedError →
      k < rc →
      sendMessageAsync true outcome rc =
        ⟨false, (List.range k).map (fun i => 2 ^ i), k + 1⟩) ∧
    (∀ (i : Nat) (h1 : i + 1 < (sendMessageAsync true outcome rc).delays.length)
        (h2 : i < (sendMessageAsync true outcome rc).delays.length),
      (sendMessageAsync true outcome rc).delays.get ⟨i + 1, h1⟩ =
        2 * (sendMessageAsync true outcome rc).delays.get ⟨i, h2⟩) := by
  have hMA : sendMessageAsync true outcome rc = sendLoop outcome rc rc 0 := rfl
  refine ⟨?_, ?_, ?_, ?_⟩
  · intro h
    rw [hMA, sendLoop_all_telegram outcome rc h rc 0 (by omega),
      ← List.range_eq_range']
  · intro htrans hk hklt
    rw [hMA,
      sendLoop_stops outcome rc k htrans (by simp [hk]) hklt rc 0 (by omega) (by omega)]
    simp [hk, ← List.range_eq_range']
  · intro htrans hk hklt
    rw [hMA,
      sendLoop_stops outcome rc k htrans (by simp [hk]) hklt rc 0 (by omega) (by omega)]
    simp [hk, ← List.range_eq_range']
  · intro i h1 h2
    obtain ⟨n, hn⟩ := sendLoop_delays_powers outcome rc rc 0
    have key : ∀ (j : Nat) (hj : j < (sendMessageAsync true outcome rc).delays.length),
        (sendMessageAsync true outcome rc).delays.get ⟨j, hj⟩ = 2 ^ j := by
      intro j hj
      have hj' : j < ((List.range' 0 n).map (fun i => 2 ^ i)).length := by
        rw [← hn, ← hMA]
        exact hj
      have hget := List.get_of_eq ((congrArg SendResult.delays hMA).trans hn) ⟨j, hj⟩
      rw [hget]
      simp [List.getElem_range']
    rw [key (i + 1) h1, key i h2, pow_succ, Nat.mul_comm]

/-- Witness for C6 at a concrete input: one transient failure then success
under the default three attempts gives `true` after 2 attempts and a single
1-second backoff. -/
theorem notifier_retry_semantics_witness :
    sendMessageAsync true exOutcome 3 = ⟨true, [1], 2⟩ := by
  have h := (notifier_retry_semantics exOutcome 3 1).2.1
    (by
      intro i hi
      have h0 : i = 0 := by omega
      rw [h0]
      rfl)
    rfl (by omega)
  simpa using h

/-- C7: `send_digest` on an empty article list reports failure with no send
attempted; and with missing transport credentials (unconfigured bot) it
reports failure immediately with no delivery attempt, for every article
list. -/
theorem send_digest_empty_or_unconfigured (configured : Bool)
    (outcome : Nat → SendOutcome) (articles : List Article) :
    send_digest configured outcome [] = ⟨false, [], 0⟩ ∧
    send_digest false outcome articles = ⟨false, [], 0⟩ := by
  constructor
  · rfl
  · unfold send_digest
    by_cases h : articles.isEmpty
    · rw [if_pos h]
    · rw [if_neg h]
      rfl

theorem insertDesc_perm (a : Article) (l : List Article) :
    List.Perm (insertDesc a l) (a :: l) := by
  induction l with
  | nil => exact List.Perm.refl _
  | cons b rest ih =>
    unfold insertDesc
    by_cases h : b.published ≤ a.published
    · rw [if_pos h]
    · rw [if_neg h]
      exact (ih.cons b).trans (List.Perm.swap a b rest)

theorem sortDesc_perm (l : List Article) : List.Perm (sortDesc l) l := by
  induction l with
  | nil => exact List.Perm.refl _
  | cons a rest ih =>
    unfold sortDesc
    rw [List.foldr_cons]
    exact (insertDesc_perm a _).trans (ih.cons a)

theorem insertDesc_pairwise (a : Article) (l : List Article)
    (hl : l.Pairwise (fun x y => y.published ≤ x.published)) :
    (insertDesc a l).Pairwise (fun x y => y.published ≤ x.published) := by
  induction l with
  | nil => simp [insertDesc]
  | cons b rest ih =>
    unfold insertDesc
    by_cases h : b.published ≤ a.published
    · rw [if_pos h]
      refine List.Pairwise.cons ?_ hl
      intro x hx
      rcases List.mem_cons.mp hx with rfl | hmem
      · exact h
      · exact le_trans ((List.pairwise_cons.mp hl).1 x hmem) h
    · rw [if_neg h]
      rcases List.pairwise_cons.mp hl with ⟨hb, hrest⟩
      refine List.Pairwise.cons ?_ (ih hrest)
      intro x hx
      have hx' : x ∈ a :: rest := (insertDesc_perm a rest).mem_iff.mp hx
      rcases List.mem_cons.mp hx' with h1 | h2
      · rw [h1]
        exact le_of_not_le h
      · exact hb x h2

theorem sortDesc_pairwise (l : List Article) :
    (sortDesc l).Pairwise (fun x y => y.published ≤ x.published) := by
  induction l with
  | nil => simp [sortDesc]
  | cons a rest ih =>
    unfold sortDesc
    rw [List.foldr_cons]
    exact insertDesc_pairwise a _ ih

theorem insertDesc_filter_eq (a : Article) (l : List Article) (k : Int)
    (hk : a.published = k) :
    (insertDesc a l).filter (fun x => x.published == k) =
      a :: l.filter (fun x => x.published == k) := by
  induction l with
  | nil => simp [insertDesc, hk]
  | cons b rest ih =>
    unfold insertDesc
    by_cases h : b.published ≤ a.published
    · rw [if_pos h]
      simp [List.filter_cons, hk]
    · rw [if_neg h]
      have hbne : b.published ≠ k := by
        rw [← hk]
        intro he
        exact h (le_of_eq he)
      simp [List.filter_cons, hbne, ih]

theorem insertDesc_filter_ne (a : Article) (l : List Article) (k : Int)
    (hk : a.published ≠ k) :
    (insertDesc a l).filter (fun x => x.published == k) =
      l.filter (fun x => x.published == k) := by
  induction l with
  | nil => simp [insertDesc, hk]
  | cons b rest ih =>
    unfold insertDesc
    by_cases h : b.published ≤ a.published
    · rw [if_pos h]
      simp [List.filter_cons, hk]
    · rw [if_neg h]
      simp [List.filter_cons, ih]

theorem sortDesc_stable (l : List Article) (k : Int) :
    (sortDesc l).filter (fun x => x.published == k) =
      l.filter (fun x => x.published == k) := by
  induction l with
  | nil => rfl
  | cons a rest ih =>
    rw [show sortDesc (a :: rest) = insertDesc a (sortDesc rest) from rfl]
    by_cases hk : a.published = k
    · rw [insertDesc_filter_eq a _ k hk, ih, List.filter_cons]
      simp [hk]
    · rw [insertDesc_filter_ne a _ k hk, ih, List.filter_cons]
      simp [hk]

/-- C8: the digest candidates are the new articles sorted by `published`
descending - a permutation of the input that is sorted newest-first and
stable (articles with equal `published` keep their original relative
order, expressed by filters at each key being unchanged) - capped to
`MAX_ARTICLES_IN_DIGEST`, so at most that many articles reach delivery; the
example [t-1, t-3, t-2] sorts to [t-1, t-2, t-3]. -/
theorem digest_sort_cap (new_articles : List Article) (k : Int) :
    List.Perm (sortDesc new_articles) new_articles ∧
    (sortDesc new_articles).Pairwise (fun x y => y.published ≤ x.published) ∧
    (sortDesc new_articles).filter (fun x => x.published == k) =
      new_articles.filter (fun x => x.published == k) ∧
    articles_to_send new_articles = (sortDesc new_articles).take MAX_ARTICLES_IN_DIGEST ∧
    (articles_to_send new_articles).length ≤ MAX_ARTICLES_IN_DIGEST ∧
    (sortDesc exSortInput).map (fun a => a.published) = [99, 98, 97] := by
  refine ⟨sortDesc_perm new_articles, sortDesc_pairwise new_articles,
    sortDesc_stable new_articles k, rfl, ?_, by decide⟩
  unfold articles_to_send
  exact List.length_take_le MAX_ARTICLES_IN_DIGEST (sortDesc new_articles)

theorem toNat_ofNat_valid (n : Nat) (h : n.isValidChar) : (Char.ofNat n).toNat = n := by
  simp [Char.ofNat, h, Char.ofNatAux, Char.toNat, UInt32.toNat, UInt32.ofNat']

/-- ASCII case folding maps word characters to word characters and non-word
characters to themselves, so it preserves `\\w`-ness. -/
theorem isWordChar_toLower (c : Char) : isWordChar c.toLower = isWordChar c := by
  by_cases h : 65 ≤ c.toNat ∧ c.toNat ≤ 90
  · have h2 : c.toLower.toNat = c.toNat + 32 := by
      simp only [Char.toLower]
      rw [if_pos (by exact ⟨h.1, h.2⟩)]
      exact toNat_ofNat_valid _ (Or.inl (by omega))
    have hL : isWordChar c.toLower = true := by
      unfold isWordChar
      rw [h2]
      simp only [Bool.or_eq_true, Bool.and_eq_true, decide_eq_true_eq, beq_iff_eq]
      omega
    have hR : isWordChar c = true := by
      unfold isWordChar
      simp only [Bool.or_eq_true, Bool.and_eq_true, decide_eq_true_eq, beq_iff_eq]
      omega
    rw [hL, hR]
  · have h2 : c.toLower = c := by
      simp only [Char.toLower]
      rw [if_neg (by omega)]
    rw [h2]

theorem list_any_congr {α : Type} (p q : α → Bool) (l : List α)
    (h : ∀ a ∈ l, p a = q a) : l.any p = l.any q := by
  induction l with
  | nil => rfl
  | cons a rest ih =>
    simp only [List.any_cons, h a (List.mem_cons_self a rest),
      ih (fun b hb => h b (List.mem_cons_of_mem a hb))]

theorem matchesFrom_get (kw s : List Char) (h : matchesFrom kw s = true) :
    ∀ j, j < kw.length → ∃ ck ct, kw.get? j = some ck ∧ s.get? j = some ct ∧
      ck.toLower = ct.toLower := by
  induction kw generalizing s with
  | nil =>
    intro j hj
    simp at hj
  | cons k ks ih =>
    cases s with
    | nil => simp [matchesFrom] at h
    | cons t ts =>
      simp only [matchesFrom, Bool.and_eq_true, beq_iff_eq] at h
      intro j hj
      cases j with
      | zero => exact ⟨k, t, rfl, rfl, h.1⟩
      | succ j' =>
        obtain ⟨ck, ct, h1, h2, h3⟩ := ih ts h.2 j' (by simpa using hj)
        exact ⟨ck, ct, by simpa using h1, by simpa using h2, h3⟩

theorem boundaryAt_zero (text : List Char) : boundaryAt text 0 = wordAt text 0 := rfl

theorem boundaryAt_succ (text : List Char) (j : Nat) :
    boundaryAt text (j + 1) = (wordAt text j != wordAt text (j + 1)) := rfl

/-- For a keyword starting and ending in word characters, the regex pattern
`\\b kw \\b` at offset `i` agrees with the spec's reading: a match not
preceded and not followed by a word character. -/
theorem boundary_cond_eq (kw text : List Char) (hne : kw ≠ [])
    (hfirst : isWordChar (kw.head hne) = true)
    (hlast : isWordChar (kw.getLast hne) = true) (i : Nat) :
    (boundaryAt text i && matchesAt kw text i && boundaryAt text (i + kw.length)) =
      (matchesAt kw text i && (decide (i = 0) || !wordAt text (i - 1)) &&
        !wordAt text (i + kw.length)) := by
  cases hm : matchesAt kw text i with
  | false => simp [hm]
  | true =>
    have hlen : 0 < kw.length := List.length_pos.mpr hne
    have hmf : matchesFrom kw (text.drop i) = true := hm
    have hwi : wordAt text i = true := by
      obtain ⟨ck, ct, h1, h2, h3⟩ := matchesFrom_get _ _ hmf 0 hlen
      have hck : isWordChar ck = true := by
        cases kw with
        | nil => exact absurd rfl hne
        | cons k ks =>
          have hk : k = ck := by simpa using h1
          rw [← hk]
          simpa using hfirst
      have htext : text.get? i = some ct := by
        have := h2
        rw [List.get?_eq_getElem?, List.getElem?_drop] at this
        simpa using this
      unfold wordAt
      rw [htext]
      show isWordChar ct = true
      rw [← isWordChar_toLower ct, ← h3, isWordChar_toLower]
      exact hck
    have hwl : wordAt text (i + kw.length - 1) = true := by
      obtain ⟨ck, ct, h1, h2, h3⟩ := matchesFrom_get _ _ hmf (kw.length - 1) (by omega)
      have hck : isWordChar ck = true := by
        have hidx : kw.length - 1 < kw.length := by omega
        have hget : kw.get? (kw.length - 1) = some (kw.getLast hne) := by
          rw [List.get?_eq_get hidx]
          congr 1
          exact (List.getLast_eq_get kw hne).symm
        rw [hget] at h1
        have : ck = kw.getLast hne := by simpa using h1.symm
        rw [this]
        exact hlast
      have htext : text.get? (i + (kw.length - 1)) = some ct := by
        have := h2
        rw [List.get?_eq_getElem?, List.getElem?_drop] at this
        simpa using this
      have hidx2 : i + kw.length - 1 = i + (kw.length - 1) := by omega
      unfold wordAt
      rw [hidx2, htext]
      show isWordChar ct = true
      rw [← isWordChar_toLower ct, ← h3, isWordChar_toLower]
      exact hck
    have hA : boundaryAt text i = (decide (i = 0) || !wordAt text (i - 1)) := by
      cases i with
      | zero => simp [boundaryAt_zero, hwi]
      | succ j =>
        rw [boundaryAt_succ, hwi]
        simp
    have hB : boundaryAt text (i + kw.length) = !wordAt text (i + kw.length) := by
      have hsplit : i + kw.length = (i + kw.length - 1) + 1 := by omega
      rw [hsplit, boundaryAt_succ, hwl]
      simp
    rw [hA, hB]
    cases (decide (i = 0) || !wordAt text (i - 1)) <;>
      cases wordAt text (i + kw.length) <;> simp

/-- C4: `filter_articles` returns exactly the articles where some keyword
matches (in input order), each annotated with the set of matching keywords in
the original casing of the configured list; for a keyword that starts and
ends with word characters the regex search agrees with the spec's
whole-word reading (`specWholeWord`): it never matches inside a larger word
and a multi-word keyword matches only as the exact phrase with boundaries on
both ends; in particular "AI" matches "AI agents are here" but not
"MAIN event", and "agent SDK" matches the exact phrase but not "agent"
alone. -/
theorem keyword_matcher_spec (keywords : List String) (articles : List Article)
    (kw text : List Char) (hne : kw ≠ [])
    (hfirst : isWordChar (kw.head hne) = true)
    (hlast : isWordChar (kw.getLast hne) = true) :
    (filter_articles keywords articles =
      (articles.filter (fun a => !(find_matches keywords a).isEmpty)).map
        (fun a => { a with matched_keywords := find_matches keywords a })) ∧
    (∀ (a : Article) (k : String), k ∈ find_matches keywords a ↔
      k ∈ keywords ∧ kwSearch k.data (articleText a) = true) ∧
    kwSearch kw text = specWholeWord kw text ∧
    kwSearch "AI".data "AI agents are here".data = true ∧
    kwSearch "AI".data "MAIN event".data = false ∧
    kwSearch "agent SDK".data "get the agent SDK today".data = true ∧
    kwSearch "agent SDK".data "the agent arrived".data = false := by
  refine ⟨?_, ?_, ?_, by decide, by decide, by decide, by decide⟩
  · induction articles with
    | nil => rfl
    | cons a rest ih =>
      unfold filter_articles
      by_cases h : (find_matches keywords a).isEmpty
      · rw [if_pos h, List.filter_cons]
        simp [h, ih]
      · rw [if_neg h, List.filter_cons]
        simp [h, ih]
  · intro a k
    unfold find_matches
    rw [List.mem_filter]
  · unfold kwSearch specWholeWord
    exact list_any_congr _ _ _
      (fun j _ => boundary_cond_eq kw text hne hfirst hlast j)

/-- Witness for C4 at concrete inputs: the keyword "AI" (non-empty, starting
and ending in word characters) has its regex search agree with the spec
whole-word predicate on "MAIN event", where both reject. -/
theorem keyword_matcher_spec_witness :
    kwSearch "AI".data "MAIN event".data =
      specWholeWord "AI".data "MAIN event".data ∧
    specWholeWord "AI".data "MAIN event".data = false := by
  constructor
  · exact (keyword_matcher_spec [] [] "AI".data "MAIN event".data (by decide)
      (by decide) (by decide)).2.2.1
  · decide

end NewsAlerts

